import Mathlib

/-!
# Verification of the Lazy Matrix March (LMM) engine

Shallow embedding of the LMM fuzzy-longest-common-subsequence solver
(`lmm.hpp` / `lmm.cpp`).  The repository ships the implementation whose
`run()` fills `totalMatch` and writes the terminal cell (the variant the
natural-language specification's reconstruction section was written from);
that variant is embedded here.  Its `prune` uses the `SLOW_BUT_CORRECT_IMPL`
loop, which is the one compiled in that translation unit.

Conventions of the embedding:
* C++ `float` arithmetic is embedded as exact `ℚ` arithmetic (the float
  literal `0.01` becomes `1/100`, `-1.f` becomes `-1`).
* `u32` values stay far below `2^32` in everything proved here, so they are
  embedded as `ℕ`; `width - i` is `ℕ` subtraction, which agrees with `u32`
  subtraction on the in-range arguments the code uses.
* The intrusive doubly-linked candidate queue is embedded as a `List`
  (head = `queue_.next`).  The free list only recycles node storage — every
  field of a node is overwritten on reuse — so it has no observable effect
  and is not modelled.  `insertBefore`/`insertAfter`/`unlink` (from the
  `list.hpp` helper header, not part of the sources) act as their names say.
* The `W·H` match matrix is embedded as a total map from the flat index the
  code computes (`width * i + j`); out-of-range flat indices, which the C++
  would address out of bounds, are still defined in the model so that the
  consequences of the indexing can be observed and proved.
* Ghost instrumentation (never read by the algorithm itself): `popGe` and
  `popGt` record whether `maxPossibleScore(cand) ≥ bestMatch_`
  (the `dlg_assert` at the pop site) resp. the strict version held at every
  pop so far, and `callLog` records every invocation of the user matcher.
-/

namespace Lmm

/-- `EvalMatch`: one cell of the lazily evaluated match matrix.
`eval = -1` is the "never evaluated" sentinel, `best = -1` the
"no path here yet" sentinel. -/
structure EvalMatch where
  eval : ℚ := -1
  best : ℚ := -1
  deriving Repr, DecidableEq

/-- `Candidate`: a queue entry `(i, j, score)`.  The `prev`/`next` pointers
of the C++ struct are represented by the position in the embedding list. -/
structure Candidate where
  i : ℕ
  j : ℕ
  score : ℚ
  deriving Repr, DecidableEq

/-- `ResultMatch`: one match point of the returned best path. -/
structure ResultMatch where
  i : ℕ
  j : ℕ
  matchVal : ℚ
  deriving Repr, DecidableEq

/-- `Result`: accumulated match value plus the match points, in forward
order (the populated suffix `res.matches.last(maxMatches - outID)` of the
output buffer, which the back-walk fills back to front). -/
structure Result where
  totalMatch : ℚ
  «matches» : List ResultMatch
  deriving Repr, DecidableEq

/-- Constructor parameters of `LazyMatrixMarch` (the allocator is storage
only and has no observable behaviour). -/
structure Config where
  width : ℕ
  height : ℕ
  matcher : ℕ → ℕ → ℚ
  branchThreshold : ℚ

/-- `maxPossibleScore(score, i, j)`: `score + std::min(width - i, height - j)`;
the `u32` minimum is converted to float by the addition. -/
def maxPossibleScore (cfg : Config) (score : ℚ) (i j : ℕ) : ℚ :=
  score + ((min (cfg.width - i) (cfg.height - j) : ℕ) : ℚ)

/-- `metric(c) = maxPossibleScore(c.score, c.i, c.j) + 0.01 * c.score`. -/
def metric (cfg : Config) (c : Candidate) : ℚ :=
  maxPossibleScore cfg c.score c.i c.j + (1 / 100) * c.score

/-- The flat index `width() * i + j` used by
`EvalMatch& match(u32 i, u32 j) { return matchMatrix_[width() * i + j]; }`. -/
def matchIdx (width i j : ℕ) : ℕ := width * i + j

/-- The mutable engine state (fields of `LazyMatrixMarch` that change after
construction), plus ghost instrumentation. -/
structure State where
  matchMatrix : ℕ → EvalMatch
  bestMatch : ℚ
  bestRes : ℕ × ℕ
  queue : List Candidate
  numEvals : ℕ
  numSteps : ℕ
  popGe : Bool
  popGt : Bool
  callLog : List (ℕ × ℕ)

/-- The queue-splicing loop of `insertCandidate`: walk from the head while
`metric(*it) > metric(*cand)` and insert before the first entry whose metric
is not strictly greater (`insertBefore(*it, *cand)`). -/
def insertCand (cfg : Config) (c : Candidate) : List Candidate → List Candidate
  | [] => [c]
  | x :: xs =>
    if metric cfg x > metric cfg c then x :: insertCand cfg c xs
    else c :: x :: xs

/-- `insertCandidate(i, j, score)` (node recycling from the free list only
reuses storage, every field is overwritten). -/
def insertCandidate (cfg : Config) (s : State) (i j : ℕ) (score : ℚ) : State :=
  { s with queue := insertCand cfg ⟨i, j, score⟩ s.queue }

/-- The `SLOW_BUT_CORRECT_IMPL` loop of `prune(minScore)`, expressed on the
reversed queue (the C++ walks `queue_.prev`, i.e. from the tail): unlink a
node if `maxPossibleScore(it->score, it->i, it->j) < minScore`, and stop
after the first node with `it->score >= minScore`. -/
def pruneGo (cfg : Config) (minScore : ℚ) : List Candidate → List Candidate
  | [] => []
  | x :: xs =>
    if maxPossibleScore cfg x.score x.i x.j < minScore then
      if x.score ≥ minScore then xs else pruneGo cfg minScore xs
    else
      if x.score ≥ minScore then x :: xs else x :: pruneGo cfg minScore xs

/-- `prune(minScore)`. -/
def prune (cfg : Config) (minScore : ℚ) (s : State) : State :=
  { s with queue := (pruneGo cfg minScore s.queue.reverse).reverse }

/-- `addCandidate(score, i, j, addI, addJ)`. -/
def addCandidate (cfg : Config) (s : State) (score : ℚ) (i j addI addJ : ℕ) :
    State :=
  if i + addI ≥ cfg.width ∨ j + addJ ≥ cfg.height then
    -- a finished run
    if score > s.bestMatch then
      { s with bestMatch := score, bestRes := (i, j) }
    else s
  else
    if maxPossibleScore cfg score (i + addI) (j + addJ) > s.bestMatch then
      insertCandidate cfg s (i + addI) (j + addJ) score
    else s

/-- Overwrite one cell of the match matrix. -/
def setCell (s : State) (idx : ℕ) (m : EvalMatch) : State :=
  { s with matchMatrix := fun k => if k = idx then m else s.matchMatrix k }

/-- One call of `step()`.  On an empty queue the C++ returns `false` and
changes nothing; the driver loop below stops in that case. -/
def step (cfg : Config) (s : State) : State :=
  match s.queue with
  | [] => s
  | cand :: rest =>
    -- ++numSteps_; popCandidate(); dlg_assert(maxPossibleScore(...) >= bestMatch_)
    let s1 : State := { s with
      numSteps := s.numSteps + 1
      queue := rest
      popGe := s.popGe &&
        decide (maxPossibleScore cfg cand.score cand.i cand.j ≥ s.bestMatch)
      popGt := s.popGt &&
        decide (maxPossibleScore cfg cand.score cand.i cand.j > s.bestMatch) }
    let idx := matchIdx cfg.width cand.i cand.j
    let m := s1.matchMatrix idx
    if m.best ≥ cand.score then s1
    else
      -- m.best = cand.score;
      let s2 := setCell s1 idx { m with best := cand.score }
      -- if (m.eval == -1.f) { m.eval = matcher_(cand.i, cand.j); ++numEvals_; }
      let s3 :=
        if m.eval = -1 then
          { setCell s2 idx { eval := cfg.matcher cand.i cand.j, best := cand.score } with
            numEvals := s2.numEvals + 1
            callLog := (cand.i, cand.j) :: s2.callLog }
        else s2
      let e := (s3.matchMatrix idx).eval
      -- if (m.eval > 0.f) { newScore; addCandidate(newScore, i, j, 1, 1); prune(newScore); }
      let s4 :=
        if e > 0 then
          prune cfg (cand.score + e)
            (addCandidate cfg s3 (cand.score + e) cand.i cand.j 1 1)
        else s3
      -- if (m.eval < branchThreshold_) { two skip branches }
      if e < cfg.branchThreshold then
        addCandidate cfg (addCandidate cfg s4 cand.score cand.i cand.j 1 0)
          cand.score cand.i cand.j 0 1
      else s4

/-- The state right after the constructor ran: empty matrix, empty queue,
then `insertCandidate(0, 0, 0.f)`. -/
def initState (cfg : Config) : State :=
  insertCandidate cfg
    { matchMatrix := fun _ => {}
      bestMatch := -1
      bestRes := (0, 0)
      queue := []
      numEvals := 0
      numSteps := 0
      popGe := true
      popGt := true
      callLog := [] } 0 0 0

/-- The driver loop `while(step()) ;`, fuel-bounded (the loop stops by
itself when the queue is empty; fuel only caps the number of iterations the
model unrolls). -/
def steps (cfg : Config) : ℕ → State → State
  | 0, s => s
  | n + 1, s => if s.queue = [] then s else steps cfg n (step cfg s)

/-- The back-walk of `run()` (`while(i > 0 && j > 0)`), accumulating the
output buffer back to front.  `fuel = i + j` makes the recursion structural;
every iteration decreases `i + j` by at least one, so with that fuel the
model never stops early. -/
def backwalk (cfg : Config) (s : State) :
    ℕ → ℕ → ℕ → List ResultMatch → List ResultMatch
  | 0, _, _, acc => acc
  | fuel + 1, i, j, acc =>
    if i = 0 ∨ j = 0 then acc
    else
      let sc := s.matchMatrix (matchIdx cfg.width i j)
      let up := s.matchMatrix (matchIdx cfg.width (i - 1) j)
      if up.best = sc.best then backwalk cfg s fuel (i - 1) j acc
      else
        let left := s.matchMatrix (matchIdx cfg.width i (j - 1))
        if left.best = sc.best then backwalk cfg s fuel i (j - 1) acc
        else
          let diag := s.matchMatrix (matchIdx cfg.width (i - 1) (j - 1))
          backwalk cfg s fuel (i - 1) (j - 1) (⟨i - 1, j - 1, diag.eval⟩ :: acc)

/-- The result-gathering part of `run()`: `totalMatch = bestMatch_`, the
terminal cell is written first (if its `eval > 0`), then the back-walk fills
the buffer towards the front; the populated suffix is returned. -/
def gather (cfg : Config) (s : State) : Result :=
  let i := s.bestRes.1
  let j := s.bestRes.2
  let lastMatch := s.matchMatrix (matchIdx cfg.width i j)
  let acc : List ResultMatch :=
    if lastMatch.eval > 0 then [⟨i, j, lastMatch.eval⟩] else []
  { totalMatch := s.bestMatch, «matches» := backwalk cfg s (i + j) i j acc }

/-- `run()`: drive the step loop (with the given fuel), then gather. -/
def run (cfg : Config) (fuel : ℕ) : Result :=
  gather cfg (steps cfg fuel (initState cfg))

/-- The sum of the `matchVal` fields of a result, `Σ matches[k].matchVal`. -/
def matchSum (r : Result) : ℚ :=
  (r.matches.map fun m => m.matchVal).sum

/-- A monotone path through the `W×H` matrix: in-range index pairs, strictly
increasing in both coordinates. -/
def pathOk (cfg : Config) : List (ℕ × ℕ) → Bool
  | [] => true
  | [p] => p.1 < cfg.width && p.2 < cfg.height
  | p :: q :: rest =>
    p.1 < cfg.width && p.2 < cfg.height && p.1 < q.1 && p.2 < q.2 &&
      pathOk cfg (q :: rest)

/-- The score of a path: the sum of the matcher values over its points. -/
def pathScore (cfg : Config) (l : List (ℕ × ℕ)) : ℚ :=
  (l.map fun p => cfg.matcher p.1 p.2).sum

/-! ## Concrete engine configurations used in the theorems below -/

/-- Scenario (a) of the specification: `W = H = 3`,
`matcher(i,j) = 1` iff `i = j`, `branchThreshold = 1`. -/
def identityCfg : Config := ⟨3, 3, fun i j => if i = j then 1 else 0, 1⟩

/-- `W = 2`, `H = 3`, matcher is the indicator of `(1,0)`,
`branchThreshold = 1`.  The flat indices of the distinct cells `(0,2)` and
`(1,0)` collide (`2·0+2 = 2·1+0`), which makes the engine drop the only
scoring cell. -/
def tallCfg : Config := ⟨2, 3, fun i j => if i = 1 ∧ j = 0 then 1 else 0, 1⟩

/-- `W = 2`, `H = 4`, matcher is the indicator of `{(0,0), (1,3)}`,
`branchThreshold = 1`.  Cells `(0,2)/(1,0)` and `(0,3)/(1,1)` collide. -/
def tall4Cfg : Config :=
  ⟨2, 4, fun i j => if (i = 0 ∧ j = 0) ∨ (i = 1 ∧ j = 3) then 1 else 0, 1⟩

/-- `W = H = 2`, matcher is the indicator of `i ≠ j` (the anti-diagonal),
`branchThreshold = 1`. -/
def swapCfg : Config := ⟨2, 2, fun i j => if i = j then 0 else 1, 1⟩

/-! ## Verification infrastructure -/

/-- The upper bound of a candidate, `maxPossibleScore(c.score, c.i, c.j)`
(§4.2 of the specification). -/
def upperBound (cfg : Config) (c : Candidate) : ℚ :=
  maxPossibleScore cfg c.score c.i c.j

/-- A candidate addresses an in-range matrix position. -/
def inRange (cfg : Config) (c : Candidate) : Prop :=
  c.i < cfg.width ∧ c.j < cfg.height

/-- The queue order relation: `a` may sit in front of `b`. -/
def metricGe (cfg : Config) (a b : Candidate) : Prop :=
  metric cfg b ≤ metric cfg a

/-- The frontier invariants maintained by every engine operation (for a
matcher with values in `[0,1]`):
the queue is sorted by non-increasing `metric`; every queued candidate is
in range; every queued candidate's upper bound is at least `bestMatch`
(this is the pop-site `dlg_assert`); every queued candidate's upper bound
is at least every queued candidate's score; and every evaluated matrix
cell holds a value in `[0,1]`. -/
structure Inv (cfg : Config) (s : State) : Prop where
  sorted : s.queue.Pairwise (metricGe cfg)
  inrange : ∀ c ∈ s.queue, inRange cfg c
  j1 : ∀ c ∈ s.queue, s.bestMatch ≤ upperBound cfg c
  j2 : ∀ c ∈ s.queue, ∀ c' ∈ s.queue, c.score ≤ upperBound cfg c'
  evalr : ∀ idx, (s.matchMatrix idx).eval = -1 ∨
    (0 ≤ (s.matchMatrix idx).eval ∧ (s.matchMatrix idx).eval ≤ 1)

/-- The bookkeeping invariants for the matcher-call log: every logged call
was in range; every logged call's cell is marked evaluated; no call is
logged twice; and `numEvals` counts the logged calls. -/
structure CallInv (cfg : Config) (s : State) : Prop where
  inrange : ∀ c ∈ s.queue, inRange cfg c
  logrange : ∀ p ∈ s.callLog, p.1 < cfg.width ∧ p.2 < cfg.height
  logset : ∀ p ∈ s.callLog,
    (s.matchMatrix (matchIdx cfg.width p.1 p.2)).eval ≠ -1
  lognodup : s.callLog.Nodup
  numevals : s.numEvals = s.callLog.length

end Lmm

set_option maxRecDepth 4000000

unseal Nat.gcd Rat.add Rat.mul Rat.sub Rat.inv

namespace Lmm

/-! ## C3: the identity scenario -/

/-- **C3.**  For `W = H = 3`, `branchThreshold = 1.0` and the matcher
returning `1` when `i = j` and `0` otherwise, `run()` returns
`totalMatch = 3` and `matches = [(0,0,1), (1,1,1), (2,2,1)]` (and 20 loop
iterations are more than enough to drain the frontier, so this is the
full run). -/
theorem run_identity3_result :
    run identityCfg 20 =
      ⟨3, [⟨0, 0, 1⟩, ⟨1, 1, 1⟩, ⟨2, 2, 1⟩]⟩ ∧
    (steps identityCfg 20 (initState identityCfg)).queue = [] :=
  ⟨rfl, rfl⟩

/-! ## C4: the flat index of `match(i, j)` -/

/-- **C4 (counterexample to the claim; the indexing is the code bug).**
`match(i,j)` computes the flat index `width·i + j`.  For `W = 3`, `H = 2`
the in-range pair `(2,1)` yields index `7`, outside the allocated
`W·H = 6` cells; and for `W = 2`, `H = 3` the two distinct in-range pairs
`(0,2)` and `(1,0)` yield the same index `2`, so the map is not injective
either. -/
theorem matchIdx_escapes_and_collides :
    matchIdx 3 2 1 = 7 ∧ ¬ matchIdx 3 2 1 < 3 * 2 ∧
    matchIdx 2 0 2 = matchIdx 2 1 0 :=
  ⟨rfl, by decide, rfl⟩

/-! ## C1: optimality at `branchThreshold = 1` fails on a 2×3 run -/

/-- **C1 (the indexing bug breaks optimality).**  With
`branchThreshold = 1.0`, `W = 2`, `H = 3` and the matcher that scores `1`
exactly on `(1,0)`, the one-point monotone path `[(1,0)]` has score `1`,
yet the completed run (the frontier is drained) returns `totalMatch = 0`:
the cells `(0,2)` and `(1,0)` share flat index `2`, so the visit to `(0,2)`
makes the later candidate at `(1,0)` look already-dominated and the scoring
cell is never evaluated. -/
theorem run_misses_monotone_path :
    pathOk tallCfg [(1, 0)] = true ∧
    pathScore tallCfg [(1, 0)] = 1 ∧
    (run tallCfg 40).totalMatch = 0 ∧
    (steps tallCfg 40 (initState tallCfg)).queue = [] :=
  ⟨rfl, by simp [pathScore, tallCfg], rfl, rfl⟩

/-! ## C2: `totalMatch = Σ matchVal` fails on a 2×4 run -/

/-- **C2 (the indexing bug breaks the sum property).**  On the completed
2×4 run with matcher scoring `1` on `(0,0)` and `(1,3)` and
`branchThreshold = 1.0`, the engine returns `totalMatch = 2` but the
returned matches sum to `1` (off by a full `1`, far beyond the `1e-3`
tolerance): the aliased cells corrupt the `best` values the back-walk
compares. -/
theorem run_totalMatch_ne_matchSum :
    (run tall4Cfg 60).totalMatch = 2 ∧
    matchSum (run tall4Cfg 60) = 1 ∧
    (steps tall4Cfg 60 (initState tall4Cfg)).queue = [] :=
  ⟨rfl, rfl, rfl⟩

/-! ## C7: the pop-site assertion -/

/-- **C7 (counterexample to the strict inequality).**  On the 2×2 run with
matcher scoring `1` on `(0,1)` and `(1,0)` and `branchThreshold = 1.0`,
some candidate is popped whose upper bound equals `bestMatch` exactly
(the ghost flag for `maxPossibleScore > bestMatch` goes false), while the
non-strict `dlg_assert(maxPossibleScore(...) >= bestMatch_)` of the source
holds at every pop of this run. -/
theorem pop_not_strictly_above_bestMatch :
    (steps swapCfg 20 (initState swapCfg)).popGt = false ∧
    (steps swapCfg 20 (initState swapCfg)).popGe = true ∧
    (steps swapCfg 20 (initState swapCfg)).queue = [] :=
  ⟨rfl, rfl, rfl⟩

end Lmm

namespace Lmm

/-! ## Queue lemmas (insertion, pruning, ordering) -/

theorem insertCandidate_queue (cfg : Config) (s : State) (i j : ℕ) (sc : ℚ) :
    (insertCandidate cfg s i j sc).queue = insertCand cfg ⟨i, j, sc⟩ s.queue :=
  rfl

theorem prune_queue (cfg : Config) (m : ℚ) (s : State) :
    (prune cfg m s).queue = (pruneGo cfg m s.queue.reverse).reverse :=
  rfl

theorem setCell_queue (s : State) (idx : ℕ) (m : EvalMatch) :
    (setCell s idx m).queue = s.queue :=
  rfl

theorem mem_insertCand {cfg : Config} {c y : Candidate} :
    ∀ {q : List Candidate}, y ∈ insertCand cfg c q ↔ y = c ∨ y ∈ q := by
  intro q
  induction q with
  | nil => simp [insertCand]
  | cons x xs ih =>
    simp only [insertCand]
    split
    · simp only [List.mem_cons, ih, List.mem_cons]
      tauto
    · simp only [List.mem_cons]

theorem insertCand_sorted {cfg : Config} {c : Candidate} :
    ∀ {q : List Candidate}, q.Pairwise (metricGe cfg) →
      (insertCand cfg c q).Pairwise (metricGe cfg) := by
  intro q
  induction q with
  | nil => intro _; simp [insertCand, metricGe, List.pairwise_cons]
  | cons x xs ih =>
    intro hp
    rw [List.pairwise_cons] at hp
    obtain ⟨hx, hxs⟩ := hp
    simp only [insertCand]
    split
    · rename_i hgt
      rw [List.pairwise_cons]
      refine ⟨fun y hy => ?_, ih hxs⟩
      rcases mem_insertCand.mp hy with rfl | hy
      · exact le_of_lt hgt
      · exact hx y hy
    · rename_i hng
      rw [not_lt] at hng
      rw [List.pairwise_cons]
      refine ⟨fun y hy => ?_, List.pairwise_cons.mpr ⟨hx, hxs⟩⟩
      rcases List.mem_cons.mp hy with rfl | hy
      · exact hng
      · exact le_trans (hx y hy) hng

theorem insertCand_eq_takeWhile_dropWhile (cfg : Config) (c : Candidate) :
    ∀ q : List Candidate,
      insertCand cfg c q =
        q.takeWhile (fun x => decide (metric cfg c < metric cfg x)) ++
          c :: q.dropWhile (fun x => decide (metric cfg c < metric cfg x)) := by
  intro q
  induction q with
  | nil => simp [insertCand]
  | cons x xs ih =>
    by_cases h : metric cfg c < metric cfg x
    · simp [insertCand, List.takeWhile_cons, List.dropWhile_cons, h, ih]
    · simp [insertCand, List.takeWhile_cons, List.dropWhile_cons, h]

theorem pruneGo_sublist (cfg : Config) (m : ℚ) :
    ∀ q : List Candidate, List.Sublist (pruneGo cfg m q) q := by
  intro q
  induction q with
  | nil => simp [pruneGo]
  | cons x xs ih =>
    simp only [pruneGo]
    split
    · split
      · exact List.sublist_cons_self x xs
      · exact ih.trans (List.sublist_cons_self x xs)
    · split
      · exact List.Sublist.refl _
      · exact ih.cons₂ x

theorem prune_sorted {cfg : Config} {s : State} {m : ℚ}
    (h : s.queue.Pairwise (metricGe cfg)) :
    (prune cfg m s).queue.Pairwise (metricGe cfg) := by
  rw [prune_queue, List.pairwise_reverse]
  exact List.Pairwise.sublist (pruneGo_sublist cfg m s.queue.reverse)
    (List.pairwise_reverse.mpr h)

theorem addCandidate_sorted {cfg : Config} {s : State} {sc : ℚ}
    {i j aI aJ : ℕ} (h : s.queue.Pairwise (metricGe cfg)) :
    (addCandidate cfg s sc i j aI aJ).queue.Pairwise (metricGe cfg) := by
  unfold addCandidate
  split
  · split
    · exact h
    · exact h
  · split
    · rw [insertCandidate_queue]; exact insertCand_sorted h
    · exact h

end Lmm

namespace Lmm

theorem initState_queue (cfg : Config) : (initState cfg).queue = [⟨0, 0, 0⟩] :=
  rfl

theorem step_sorted (cfg : Config) {s : State}
    (h : s.queue.Pairwise (metricGe cfg)) :
    (step cfg s).queue.Pairwise (metricGe cfg) := by
  rcases hq : s.queue with _ | ⟨cand, rest⟩
  · unfold step
    rw [hq]
    exact h
  · have hrest : rest.Pairwise (metricGe cfg) :=
      (List.pairwise_cons.mp (hq ▸ h)).2
    unfold step
    rw [hq]
    dsimp only
    split
    · exact hrest
    · repeat' split
      all_goals repeat (first | apply addCandidate_sorted | apply prune_sorted)
      all_goals exact hrest

theorem steps_sorted (cfg : Config) (n : ℕ) :
    ∀ s : State, s.queue.Pairwise (metricGe cfg) →
      (steps cfg n s).queue.Pairwise (metricGe cfg) := by
  induction n with
  | zero => intro s h; exact h
  | succ n ih =>
    intro s h
    unfold steps
    split
    · exact h
    · exact ih _ (step_sorted cfg h)

end Lmm

namespace Lmm

/-! ## C5: frontier ordering and the insertion position -/

/-- **C5 (counterexample to the equal-metric clause).**  The insertion loop
`while(it != &queue_ && metric(*it) > metric(*cand))` stops at the first
entry whose metric is *not strictly greater* and splices the new candidate
before it, so a new candidate whose metric equals an existing entry's goes
*before* that entry, not after it: inserting `(2,2,100/101)` (metric `2`)
into a queue holding `(1,1,0)` (also metric `2`) puts the new candidate at
the head. -/
theorem insert_equal_metric_goes_before :
    metric identityCfg ⟨2, 2, 100 / 101⟩ = metric identityCfg ⟨1, 1, 0⟩ ∧
    insertCand identityCfg ⟨2, 2, 100 / 101⟩ [⟨1, 1, 0⟩] =
      [⟨2, 2, 100 / 101⟩, ⟨1, 1, 0⟩] :=
  ⟨rfl, rfl⟩

/-- **C5 (amended).**  The frontier queue of every reachable engine state is
ordered by non-increasing `metric` from head to tail, and `insertCandidate`
splices a new candidate exactly before the first entry whose metric is *not
strictly greater* than the new one's — in particular *before* (not after)
any existing entries of equal metric. -/
theorem queue_sorted_and_insert_position :
    (∀ (cfg : Config) (fuel : ℕ),
      ((steps cfg fuel (initState cfg)).queue).Pairwise (metricGe cfg)) ∧
    ∀ (cfg : Config) (c : Candidate) (q : List Candidate),
      insertCand cfg c q =
        q.takeWhile (fun x => decide (metric cfg c < metric cfg x)) ++
          c :: q.dropWhile (fun x => decide (metric cfg c < metric cfg x)) := by
  constructor
  · intro cfg fuel
    apply steps_sorted
    rw [initState_queue]
    simp [List.pairwise_cons]
  · exact insertCand_eq_takeWhile_dropWhile

/-! ## C9: determinism of construction plus run -/

/-- **C9.**  Construction plus `run()` is deterministic: two engines built
with the same width, height and branch threshold, and matchers that agree
on every argument pair, return equal results (and equal diagnostic
counters) for the same number of driver iterations. -/
theorem run_deterministic (W H : ℕ) (t : ℚ) (f g : ℕ → ℕ → ℚ) (fuel : ℕ)
    (h : ∀ i j, f i j = g i j) :
    run ⟨W, H, f, t⟩ fuel = run ⟨W, H, g, t⟩ fuel ∧
    (steps ⟨W, H, f, t⟩ fuel (initState ⟨W, H, f, t⟩)).numEvals =
      (steps ⟨W, H, g, t⟩ fuel (initState ⟨W, H, g, t⟩)).numEvals := by
  have hfg : f = g := funext fun i => funext fun j => h i j
  subst hfg
  exact ⟨rfl, rfl⟩

/-- Witness for `run_deterministic` at a concrete input: two separately
written (but pointwise equal) identity matchers on a 3×3 engine. -/
theorem run_deterministic_witness :
    run ⟨3, 3, fun i j => if i = j then 1 else 0, 1⟩ 20 =
      run ⟨3, 3, fun i j => if j = i then 1 else 0, 1⟩ 20 ∧
    (steps ⟨3, 3, fun i j => if i = j then 1 else 0, 1⟩ 20
        (initState ⟨3, 3, fun i j => if i = j then 1 else 0, 1⟩)).numEvals =
      (steps ⟨3, 3, fun i j => if j = i then 1 else 0, 1⟩ 20
        (initState ⟨3, 3, fun i j => if j = i then 1 else 0, 1⟩)).numEvals :=
  run_deterministic 3 3 1 _ _ 20 (fun i j => by
    by_cases hij : i = j <;> simp [hij, eq_comm])

end Lmm

namespace Lmm

/-! ## Projection lemmas for the state transformers -/

theorem addCandidate_callLog (cfg : Config) (s : State) (sc : ℚ)
    (i j aI aJ : ℕ) : (addCandidate cfg s sc i j aI aJ).callLog = s.callLog := by
  unfold addCandidate insertCandidate
  split
  · split <;> rfl
  · split <;> rfl

theorem addCandidate_matchMatrix (cfg : Config) (s : State) (sc : ℚ)
    (i j aI aJ : ℕ) :
    (addCandidate cfg s sc i j aI aJ).matchMatrix = s.matchMatrix := by
  unfold addCandidate insertCandidate
  split
  · split <;> rfl
  · split <;> rfl

theorem addCandidate_numEvals (cfg : Config) (s : State) (sc : ℚ)
    (i j aI aJ : ℕ) :
    (addCandidate cfg s sc i j aI aJ).numEvals = s.numEvals := by
  unfold addCandidate insertCandidate
  split
  · split <;> rfl
  · split <;> rfl

theorem prune_callLog (cfg : Config) (m : ℚ) (s : State) :
    (prune cfg m s).callLog = s.callLog := rfl

theorem prune_matchMatrix (cfg : Config) (m : ℚ) (s : State) :
    (prune cfg m s).matchMatrix = s.matchMatrix := rfl

theorem prune_numEvals (cfg : Config) (m : ℚ) (s : State) :
    (prune cfg m s).numEvals = s.numEvals := rfl

theorem setCell_callLog (s : State) (idx : ℕ) (m : EvalMatch) :
    (setCell s idx m).callLog = s.callLog := rfl

/-! ## Membership lemmas for the frontier -/

theorem mem_addCandidate_queue {cfg : Config} {s : State} {sc : ℚ}
    {i j aI aJ : ℕ} {x : Candidate}
    (hx : x ∈ (addCandidate cfg s sc i j aI aJ).queue) :
    (x = ⟨i + aI, j + aJ, sc⟩ ∧ i + aI < cfg.width ∧ j + aJ < cfg.height) ∨
      x ∈ s.queue := by
  unfold addCandidate at hx
  split at hx
  · split at hx <;> exact Or.inr hx
  · rename_i hin
    push_neg at hin
    split at hx
    · rw [insertCandidate_queue] at hx
      rcases mem_insertCand.mp hx with rfl | hx
      · exact Or.inl ⟨rfl, hin.1, hin.2⟩
      · exact Or.inr hx
    · exact Or.inr hx

theorem mem_of_mem_prune {cfg : Config} {m : ℚ} {s : State} {x : Candidate}
    (hx : x ∈ (prune cfg m s).queue) : x ∈ s.queue := by
  rw [prune_queue, List.mem_reverse] at hx
  have := (pruneGo_sublist cfg m s.queue.reverse).subset hx
  rwa [List.mem_reverse] at this

theorem ranges_addCandidate {cfg : Config} {s : State} {sc : ℚ}
    {i j aI aJ : ℕ} (h1 : ∀ c ∈ s.queue, inRange cfg c) :
    ∀ c ∈ (addCandidate cfg s sc i j aI aJ).queue, inRange cfg c := by
  intro x hx
  rcases mem_addCandidate_queue hx with ⟨rfl, hi, hj⟩ | hx
  · exact ⟨hi, hj⟩
  · exact h1 x hx

theorem ranges_prune {cfg : Config} {s : State} {m : ℚ}
    (h1 : ∀ c ∈ s.queue, inRange cfg c) :
    ∀ c ∈ (prune cfg m s).queue, inRange cfg c :=
  fun x hx => h1 x (mem_of_mem_prune hx)

end Lmm

namespace Lmm

/-- One step keeps every queued candidate and every logged matcher call in
range. -/
theorem step_ranges (cfg : Config) {s : State}
    (h1 : ∀ c ∈ s.queue, inRange cfg c)
    (h2 : ∀ p ∈ s.callLog, p.1 < cfg.width ∧ p.2 < cfg.height) :
    (∀ c ∈ (step cfg s).queue, inRange cfg c) ∧
    (∀ p ∈ (step cfg s).callLog, p.1 < cfg.width ∧ p.2 < cfg.height) := by
  rcases hq : s.queue with _ | ⟨cand, rest⟩
  · unfold step
    rw [hq]
    exact ⟨h1, h2⟩
  · have hcand : inRange cfg cand := h1 cand (hq ▸ List.mem_cons_self _ _)
    have hres : ∀ x ∈ rest, inRange cfg x :=
      fun x hx => h1 x (hq ▸ List.mem_cons_of_mem _ hx)
    unfold step
    rw [hq]
    dsimp only
    split
    · exact ⟨hres, h2⟩
    · repeat' split
      all_goals refine ⟨?_, ?_⟩
      all_goals try
        (repeat (first | apply ranges_addCandidate | apply ranges_prune)
         exact hres)
      all_goals simp only [addCandidate_callLog, prune_callLog, setCell_callLog]
      all_goals intro p hp
      all_goals first
        | exact h2 p hp
        | (rcases List.mem_cons.mp hp with rfl | hp'
           · exact hcand
           · exact h2 p hp')

end Lmm

namespace Lmm

theorem steps_ranges (cfg : Config) (n : ℕ) :
    ∀ s : State, (∀ c ∈ s.queue, inRange cfg c) →
      (∀ p ∈ s.callLog, p.1 < cfg.width ∧ p.2 < cfg.height) →
      (∀ c ∈ (steps cfg n s).queue, inRange cfg c) ∧
      (∀ p ∈ (steps cfg n s).callLog, p.1 < cfg.width ∧ p.2 < cfg.height) := by
  induction n with
  | zero => intro s h1 h2; exact ⟨h1, h2⟩
  | succ n ih =>
    intro s h1 h2
    unfold steps
    split
    · exact ⟨h1, h2⟩
    · obtain ⟨g1, g2⟩ := step_ranges cfg h1 h2
      exact ih _ g1 g2

/-! ## C10: the matcher is only invoked with in-range arguments -/

/-- **C10.**  During construction and any number of driver iterations of an
engine with positive dimensions, every invocation of the user-supplied
matcher (as recorded by the ghost call log) has in-range arguments:
`i < width` and `j < height`. -/
theorem matcher_args_in_range (cfg : Config)
    (hW : 0 < cfg.width) (hH : 0 < cfg.height) (fuel : ℕ) :
    ∀ p ∈ (steps cfg fuel (initState cfg)).callLog,
      p.1 < cfg.width ∧ p.2 < cfg.height := by
  refine (steps_ranges cfg fuel (initState cfg) ?_ ?_).2
  · intro c hc
    rw [initState_queue] at hc
    rcases List.mem_cons.mp hc with rfl | hc
    · exact ⟨hW, hH⟩
    · simp at hc
  · intro p hp
    simp [initState, insertCandidate] at hp

/-- Witness for `matcher_args_in_range`: the 3×3 identity run calls the
matcher at (0,0), and that recorded call is in range. -/
theorem matcher_args_in_range_witness :
    ((0, 0) : ℕ × ℕ) ∈ (steps identityCfg 20 (initState identityCfg)).callLog ∧
    (0 : ℕ) < identityCfg.width ∧ (0 : ℕ) < identityCfg.height :=
  ⟨by decide,
    matcher_args_in_range identityCfg (by decide) (by decide) 20 (0, 0) (by decide)⟩

end Lmm
namespace Lmm

theorem setCell_numEvals (s : State) (idx : ℕ) (m : EvalMatch) :
    (setCell s idx m).numEvals = s.numEvals := rfl

theorem setCell_matchMatrix_self (s : State) (idx : ℕ) (m : EvalMatch) :
    (setCell s idx m).matchMatrix idx = m := by
  unfold setCell
  simp

theorem setCell_matchMatrix_other (s : State) (idx : ℕ) (m : EvalMatch)
    {k : ℕ} (h : k ≠ idx) : (setCell s idx m).matchMatrix k = s.matchMatrix k := by
  unfold setCell
  simp [h]

theorem step_eval_cases (cfg : Config) {s : State} {cand : Candidate}
    {rest : List Candidate} (hq : s.queue = cand :: rest) :
    ((step cfg s).callLog = s.callLog ∧ (step cfg s).numEvals = s.numEvals ∧
      ∀ k, ((step cfg s).matchMatrix k).eval = (s.matchMatrix k).eval)
    ∨ ((s.matchMatrix (matchIdx cfg.width cand.i cand.j)).eval = -1 ∧
       (step cfg s).callLog = (cand.i, cand.j) :: s.callLog ∧
       (step cfg s).numEvals = s.numEvals + 1 ∧
       ((step cfg s).matchMatrix (matchIdx cfg.width cand.i cand.j)).eval =
         cfg.matcher cand.i cand.j ∧
       ∀ k, k ≠ matchIdx cfg.width cand.i cand.j →
         ((step cfg s).matchMatrix k).eval = (s.matchMatrix k).eval) := by
  unfold step
  rw [hq]
  dsimp only
  split
  · exact Or.inl ⟨rfl, rfl, fun k => rfl⟩
  · by_cases hev : (s.matchMatrix (matchIdx cfg.width cand.i cand.j)).eval = -1
    · simp only [if_pos hev]
      refine Or.inr ⟨hev, ?_, ?_, ?_, ?_⟩
      · repeat' split
        all_goals simp only [addCandidate_callLog, prune_callLog, setCell_callLog]
      · repeat' split
        all_goals simp only [addCandidate_numEvals, prune_numEvals, setCell_numEvals]
      · repeat' split
        all_goals simp only [addCandidate_matchMatrix, prune_matchMatrix,
          setCell_matchMatrix_self]
      · intro k hk
        repeat' split
        all_goals try simp only [addCandidate_matchMatrix, prune_matchMatrix]
        all_goals simp only [setCell_matchMatrix_other _ _ _ hk]
    · simp only [if_neg hev]
      refine Or.inl ⟨?_, ?_, ?_⟩
      · repeat' split
        all_goals simp only [addCandidate_callLog, prune_callLog, setCell_callLog]
      · repeat' split
        all_goals simp only [addCandidate_numEvals, prune_numEvals, setCell_numEvals]
      · intro k
        repeat' split
        all_goals try simp only [addCandidate_matchMatrix, prune_matchMatrix]
        all_goals by_cases hk : k = matchIdx cfg.width cand.i cand.j
        all_goals first
          | (subst hk; simp only [setCell_matchMatrix_self])
          | simp only [setCell_matchMatrix_other _ _ _ hk]

end Lmm

namespace Lmm

/-- One step preserves the matcher-call bookkeeping invariants, given a
matcher that never returns the `-1` sentinel. -/
theorem step_callInv (cfg : Config) (hf : ∀ i j, 0 ≤ cfg.matcher i j)
    {s : State} (h : CallInv cfg s) : CallInv cfg (step cfg s) := by
  rcases hq : s.queue with _ | ⟨cand, rest⟩
  · have hid : step cfg s = s := by
      unfold step
      rw [hq]
    rw [hid]
    exact h
  · obtain ⟨hqr, hlr⟩ := step_ranges cfg h.inrange h.logrange
    rcases step_eval_cases cfg hq with ⟨hcl, hne, hmm⟩ |
      ⟨hev, hcl, hne, hself, hother⟩
    · refine ⟨hqr, hlr, ?_, ?_, ?_⟩
      · intro p hp
        rw [hcl] at hp
        rw [hmm]
        exact h.logset p hp
      · rw [hcl]; exact h.lognodup
      · rw [hne, hcl]; exact h.numevals
    · refine ⟨hqr, hlr, ?_, ?_, ?_⟩
      · intro p hp
        rw [hcl] at hp
        rcases List.mem_cons.mp hp with rfl | hp
        · rw [hself]
          have := hf cand.i cand.j
          intro hcon
          rw [hcon] at this
          norm_num at this
        · by_cases hpk : matchIdx cfg.width p.1 p.2 =
              matchIdx cfg.width cand.i cand.j
          · rw [hpk, hself]
            have := hf cand.i cand.j
            intro hcon
            rw [hcon] at this
            norm_num at this
          · rw [hother _ hpk]
            exact h.logset p hp
      · rw [hcl]
        refine List.nodup_cons.mpr ⟨?_, h.lognodup⟩
        intro hmem
        exact h.logset _ hmem hev
      · rw [hne, hcl, List.length_cons, h.numevals]

end Lmm

namespace Lmm

theorem steps_callInv (cfg : Config) (hf : ∀ i j, 0 ≤ cfg.matcher i j)
    (n : ℕ) : ∀ s : State, CallInv cfg s → CallInv cfg (steps cfg n s) := by
  induction n with
  | zero => intro s h; exact h
  | succ n ih =>
    intro s h
    unfold steps
    split
    · exact h
    · exact ih _ (step_callInv cfg hf h)

theorem initState_callInv (cfg : Config) (hW : 0 < cfg.width)
    (hH : 0 < cfg.height) : CallInv cfg (initState cfg) := by
  refine ⟨?_, ?_, ?_, ?_, ?_⟩
  · intro c hc
    rw [initState_queue] at hc
    rcases List.mem_cons.mp hc with rfl | hc
    · exact ⟨hW, hH⟩
    · simp at hc
  · intro p hp
    simp [initState, insertCandidate] at hp
  · intro p hp
    simp [initState, insertCandidate] at hp
  · simp [initState, insertCandidate]
  · rfl

/-! ## C8: each cell is evaluated at most once, `numEvals ≤ W·H` -/

/-- **C8.**  For an engine with positive dimensions and a matcher honouring
the `[0,1]` contract (no `-1` sentinel values), any number of driver
iterations invokes the matcher at most once per distinct pair (the ghost
call log has no duplicates), and the eval counter — which equals the number
of matcher invocations — is at most `width · height`. -/
theorem matcher_called_once_numEvals_le (cfg : Config)
    (hW : 0 < cfg.width) (hH : 0 < cfg.height)
    (hf : ∀ i j, 0 ≤ cfg.matcher i j) (fuel : ℕ) :
    (steps cfg fuel (initState cfg)).callLog.Nodup ∧
    (steps cfg fuel (initState cfg)).numEvals =
      (steps cfg fuel (initState cfg)).callLog.length ∧
    (steps cfg fuel (initState cfg)).numEvals ≤ cfg.width * cfg.height := by
  have hinv := steps_callInv cfg hf fuel (initState cfg)
    (initState_callInv cfg hW hH)
  refine ⟨hinv.lognodup, hinv.numevals, ?_⟩
  rw [hinv.numevals]
  have hcard : ((steps cfg fuel (initState cfg)).callLog).toFinset.card =
      ((steps cfg fuel (initState cfg)).callLog).length :=
    List.toFinset_card_of_nodup hinv.lognodup
  rw [← hcard]
  have hsub : ((steps cfg fuel (initState cfg)).callLog).toFinset ⊆
      Finset.range cfg.width ×ˢ Finset.range cfg.height := by
    intro p hp
    rw [List.mem_toFinset] at hp
    obtain ⟨h1, h2⟩ := hinv.logrange p hp
    rw [Finset.mem_product, Finset.mem_range, Finset.mem_range]
    exact ⟨h1, h2⟩
  calc ((steps cfg fuel (initState cfg)).callLog).toFinset.card
      ≤ (Finset.range cfg.width ×ˢ Finset.range cfg.height).card :=
        Finset.card_le_card hsub
    _ = cfg.width * cfg.height := by
        rw [Finset.card_product, Finset.card_range, Finset.card_range]

/-- Witness for `matcher_called_once_numEvals_le`: the 3×3 identity run. -/
theorem matcher_called_once_numEvals_le_witness :
    (steps identityCfg 20 (initState identityCfg)).callLog.Nodup ∧
    (steps identityCfg 20 (initState identityCfg)).numEvals =
      (steps identityCfg 20 (initState identityCfg)).callLog.length ∧
    (steps identityCfg 20 (initState identityCfg)).numEvals ≤
      identityCfg.width * identityCfg.height :=
  matcher_called_once_numEvals_le identityCfg (by decide) (by decide)
    (fun i j => by
      by_cases hij : i = j <;> simp [identityCfg, hij]) 20

end Lmm

namespace Lmm

/-! ## Arithmetic facts about upper bounds and the metric -/

theorem score_le_upperBound (cfg : Config) (c : Candidate) :
    c.score ≤ upperBound cfg c := by
  unfold upperBound maxPossibleScore
  have : (0 : ℚ) ≤ ((min (cfg.width - c.i) (cfg.height - c.j) : ℕ) : ℚ) :=
    Nat.cast_nonneg _
  linarith

theorem add_one_le_upperBound (cfg : Config) {c : Candidate}
    (h : inRange cfg c) : c.score + 1 ≤ upperBound cfg c := by
  unfold upperBound maxPossibleScore
  have hn : 1 ≤ min (cfg.width - c.i) (cfg.height - c.j) := by
    obtain ⟨h1, h2⟩ := h
    omega
  have : (1 : ℚ) ≤ ((min (cfg.width - c.i) (cfg.height - c.j) : ℕ) : ℚ) := by
    exact_mod_cast hn
  linarith

theorem metric_eq (cfg : Config) (c : Candidate) :
    metric cfg c = upperBound cfg c + (1 / 100) * c.score := rfl

/-- If a candidate `y` sits in front of `x` in the metric order and `x`'s
score already reaches `m`, then `y`'s upper bound reaches `m` as well (the
ordering assumption behind the early `break` of `prune`). -/
theorem ub_ge_of_metric_le (cfg : Config) {x y : Candidate} {m : ℚ}
    (h : metric cfg x ≤ metric cfg y) (hs : m ≤ x.score) :
    m ≤ upperBound cfg y := by
  by_contra hlt
  push_neg at hlt
  have h1 := score_le_upperBound cfg x
  have h2 := score_le_upperBound cfg y
  rw [metric_eq, metric_eq] at h
  linarith

/-- After `pruneGo` over a tail-first (ascending-metric) list, every
remaining entry has upper bound at least `minScore` … provided the entries
removed are exactly those the loop should remove: completeness of the
`SLOW_BUT_CORRECT_IMPL` loop. -/
theorem pruneGo_complete (cfg : Config) (m : ℚ) :
    ∀ {l : List Candidate},
      l.Pairwise (fun a b => metric cfg a ≤ metric cfg b) →
      ∀ x ∈ pruneGo cfg m l, m ≤ upperBound cfg x := by
  intro l
  induction l with
  | nil => intro _ x hx; simp [pruneGo] at hx
  | cons a as ih =>
    intro hp x hx
    rw [List.pairwise_cons] at hp
    obtain ⟨ha, has⟩ := hp
    simp only [pruneGo] at hx
    split at hx
    · rename_i hub
      split at hx
      · rename_i hsc
        have := score_le_upperBound cfg a
        have : upperBound cfg a < m := hub
        linarith
      · exact ih has x hx
    · rename_i hub
      push_neg at hub
      split at hx
      · rename_i hsc
        rcases List.mem_cons.mp hx with rfl | hx
        · exact hub
        · exact ub_ge_of_metric_le cfg (ha x hx) hsc
      · rcases List.mem_cons.mp hx with rfl | hx
        · exact hub
        · exact ih has x hx

/-- Completeness of `prune` on a metric-sorted queue: every surviving
candidate's upper bound is at least `minScore`. -/
theorem prune_complete (cfg : Config) {s : State} {m : ℚ}
    (hs : s.queue.Pairwise (metricGe cfg)) :
    ∀ x ∈ (prune cfg m s).queue, m ≤ upperBound cfg x := by
  intro x hx
  rw [prune_queue, List.mem_reverse] at hx
  refine pruneGo_complete cfg m ?_ x hx
  exact List.pairwise_reverse.mpr hs

/-- The upper bound of a successor candidate (the parent's position shifted
by at most one in each coordinate, score increased by `δ ∈ [0,1]`) reaches
the score of every queue entry the popped parent dominated in the metric
order. -/
theorem new_child_ub_ge (cfg : Config) {x cand : Candidate} {σ : ℚ}
    {i' j' : ℕ}
    (hm : metric cfg x ≤ metric cfg cand)
    (hx : inRange cfg x) (hc : inRange cfg cand)
    (hσ1 : cand.score ≤ σ) (hσ2 : σ ≤ cand.score + 1)
    (hk : upperBound cfg cand - 1 + (σ - cand.score) ≤
      upperBound cfg ⟨i', j', σ⟩) :
    x.score ≤ upperBound cfg ⟨i', j', σ⟩ := by
  by_contra hlt
  push_neg at hlt
  have kx := add_one_le_upperBound cfg hx
  have kc := add_one_le_upperBound cfg hc
  rw [metric_eq, metric_eq] at hm
  linarith

/-- The min-distance of a successor position is at most one less than the
parent's (`ℚ`-cast form of the geometry of right/down/diagonal moves). -/
theorem cast_min_child_ge (W H i j aI aJ : ℕ) (haI : aI ≤ 1) (haJ : aJ ≤ 1) :
    ((min (W - i) (H - j) : ℕ) : ℚ) - 1 ≤
      ((min (W - (i + aI)) (H - (j + aJ)) : ℕ) : ℚ) := by
  have hn : min (W - i) (H - j) ≤ min (W - (i + aI)) (H - (j + aJ)) + 1 := by
    omega
  have h2 : ((min (W - i) (H - j) : ℕ) : ℚ) ≤
      ((min (W - (i + aI)) (H - (j + aJ)) : ℕ) : ℚ) + 1 := by
    exact_mod_cast hn
  linarith

end Lmm

namespace Lmm

/-- Strengthened membership: a candidate of the queue after `addCandidate`
is either the freshly inserted successor — in range, with upper bound
strictly above the `bestMatch` the filter compared against — or an old
entry. -/
theorem mem_addCandidate_queue_strong {cfg : Config} {s : State} {sc : ℚ}
    {i j aI aJ : ℕ} {x : Candidate}
    (hx : x ∈ (addCandidate cfg s sc i j aI aJ).queue) :
    (x = ⟨i + aI, j + aJ, sc⟩ ∧ i + aI < cfg.width ∧ j + aJ < cfg.height ∧
      s.bestMatch < upperBound cfg ⟨i + aI, j + aJ, sc⟩) ∨
      x ∈ s.queue := by
  unfold addCandidate at hx
  split at hx
  · split at hx <;> exact Or.inr hx
  · rename_i hin
    push_neg at hin
    split at hx
    · rename_i hguard
      rw [insertCandidate_queue] at hx
      rcases mem_insertCand.mp hx with rfl | hx
      · exact Or.inl ⟨rfl, hin.1, hin.2, hguard⟩
      · exact Or.inr hx
    · exact Or.inr hx

theorem addCandidate_bestMatch_cases (cfg : Config) (s : State) (sc : ℚ)
    (i j aI aJ : ℕ) :
    (addCandidate cfg s sc i j aI aJ).bestMatch = s.bestMatch ∨
    ((addCandidate cfg s sc i j aI aJ).bestMatch = sc ∧ s.bestMatch < sc) := by
  unfold addCandidate insertCandidate
  split
  · split
    · rename_i hgt
      exact Or.inr ⟨rfl, hgt⟩
    · exact Or.inl rfl
  · split <;> exact Or.inl rfl

theorem prune_bestMatch (cfg : Config) (m : ℚ) (s : State) :
    (prune cfg m s).bestMatch = s.bestMatch := rfl

/-- `addCandidate` preserves the four frontier invariants, given that the
prospective successor's upper bound reaches every queued score (when it is
in range) and that its own score is below every queued upper bound. -/
theorem addCandidate_qinv (cfg : Config) {s : State} {σ : ℚ} {i j aI aJ : ℕ}
    (hs : s.queue.Pairwise (metricGe cfg))
    (hr : ∀ c ∈ s.queue, inRange cfg c)
    (h1 : ∀ c ∈ s.queue, s.bestMatch ≤ upperBound cfg c)
    (h2 : ∀ c ∈ s.queue, ∀ c' ∈ s.queue, c.score ≤ upperBound cfg c')
    (hnew : i + aI < cfg.width → j + aJ < cfg.height →
      ∀ x ∈ s.queue, x.score ≤ upperBound cfg ⟨i + aI, j + aJ, σ⟩)
    (hold : ∀ x ∈ s.queue, σ ≤ upperBound cfg x) :
    (addCandidate cfg s σ i j aI aJ).queue.Pairwise (metricGe cfg) ∧
    (∀ c ∈ (addCandidate cfg s σ i j aI aJ).queue, inRange cfg c) ∧
    (∀ c ∈ (addCandidate cfg s σ i j aI aJ).queue,
      (addCandidate cfg s σ i j aI aJ).bestMatch ≤ upperBound cfg c) ∧
    (∀ c ∈ (addCandidate cfg s σ i j aI aJ).queue,
      ∀ c' ∈ (addCandidate cfg s σ i j aI aJ).queue,
        c.score ≤ upperBound cfg c') := by
  unfold addCandidate
  split
  · split
    · exact ⟨hs, hr, hold, h2⟩
    · exact ⟨hs, hr, h1, h2⟩
  · rename_i hin
    push_neg at hin
    split
    · rename_i hguard
      rw [insertCandidate_queue]
      have hmem : ∀ {y}, y ∈ insertCand cfg ⟨i + aI, j + aJ, σ⟩ s.queue →
          y = (⟨i + aI, j + aJ, σ⟩ : Candidate) ∨ y ∈ s.queue :=
        fun hy => mem_insertCand.mp hy
      refine ⟨insertCand_sorted hs, ?_, ?_, ?_⟩
      · intro c hc
        rcases hmem hc with rfl | hc
        · exact ⟨hin.1, hin.2⟩
        · exact hr c hc
      · intro c hc
        rcases hmem hc with rfl | hc
        · exact le_of_lt hguard
        · exact h1 c hc
      · intro c hc c' hc'
        rcases hmem hc with rfl | hc <;> rcases hmem hc' with rfl | hc'
        · exact score_le_upperBound cfg _
        · exact hold c' hc'
        · exact hnew hin.1 hin.2 c hc
        · exact h2 c hc c' hc'
    · exact ⟨hs, hr, h1, h2⟩

end Lmm

namespace Lmm

/-- Geometric bound for a successor candidate's upper bound: moving at most
one step right/down loses at most `1` of the min-distance. -/
theorem upperBound_child (cfg : Config) (c : Candidate) (σ : ℚ) (aI aJ : ℕ)
    (haI : aI ≤ 1) (haJ : aJ ≤ 1) :
    upperBound cfg c - 1 + (σ - c.score) ≤
      upperBound cfg ⟨c.i + aI, c.j + aJ, σ⟩ := by
  unfold upperBound maxPossibleScore
  have := cast_min_child_ge cfg.width cfg.height c.i c.j aI aJ haI haJ
  dsimp only
  linarith

/-- The diagonal successor plus the immediately following `prune(newScore)`
preserve the frontier invariants and leave only candidates whose upper
bound reaches `newScore = cand.score + e`. -/
theorem diag_prune_inv (cfg : Config) {B P : State} {cand : Candidate}
    {e : ℚ}
    (hP : P = prune cfg (cand.score + e)
      (addCandidate cfg B (cand.score + e) cand.i cand.j 1 1))
    (hs : B.queue.Pairwise (metricGe cfg))
    (hr : ∀ c ∈ B.queue, inRange cfg c)
    (h1 : ∀ c ∈ B.queue, B.bestMatch ≤ upperBound cfg c)
    (h2 : ∀ c ∈ B.queue, ∀ c' ∈ B.queue, c.score ≤ upperBound cfg c')
    (hc : inRange cfg cand)
    (he0 : 0 ≤ e) (he1 : e ≤ 1)
    (hdom : ∀ x ∈ B.queue, metric cfg x ≤ metric cfg cand) :
    P.queue.Pairwise (metricGe cfg) ∧
    (∀ c ∈ P.queue, inRange cfg c) ∧
    (∀ c ∈ P.queue, P.bestMatch ≤ upperBound cfg c) ∧
    (∀ c ∈ P.queue, ∀ c' ∈ P.queue, c.score ≤ upperBound cfg c') ∧
    (∀ c ∈ P.queue, cand.score + e ≤ upperBound cfg c) ∧
    (∀ c ∈ P.queue,
      c = ⟨cand.i + 1, cand.j + 1, cand.score + e⟩ ∨ c ∈ B.queue) := by
  subst hP
  have hsA : (addCandidate cfg B (cand.score + e)
      cand.i cand.j 1 1).queue.Pairwise (metricGe cfg) :=
    addCandidate_sorted hs
  have hcompl := prune_complete cfg
    (m := cand.score + e) hsA
  have hnewub : ∀ x ∈ B.queue,
      x.score ≤ upperBound cfg ⟨cand.i + 1, cand.j + 1, cand.score + e⟩ := by
    intro x hx
    refine new_child_ub_ge cfg (hdom x hx) (hr x hx) hc (by linarith)
      (by linarith) ?_
    have := upperBound_child cfg cand (cand.score + e) 1 1 le_rfl le_rfl
    linarith
  refine ⟨prune_sorted hsA, ?_, ?_, ?_, hcompl, ?_⟩
  · intro c hc'
    rcases mem_addCandidate_queue_strong (mem_of_mem_prune hc') with
      ⟨rfl, hi, hj, _⟩ | hc'
    · exact ⟨hi, hj⟩
    · exact hr c hc'
  · intro c hc'
    rw [prune_bestMatch]
    rcases addCandidate_bestMatch_cases cfg B (cand.score + e)
      cand.i cand.j 1 1 with hbm | ⟨hbm, _⟩
    · rw [hbm]
      rcases mem_addCandidate_queue_strong (mem_of_mem_prune hc') with
        ⟨rfl, _, _, hgt⟩ | hc''
      · exact le_of_lt hgt
      · exact h1 c hc''
    · rw [hbm]
      exact hcompl c hc'
  · intro c hc' c' hc''
    rcases mem_addCandidate_queue_strong (mem_of_mem_prune hc') with
      ⟨rfl, _⟩ | hcB
    · exact hcompl c' hc''
    · rcases mem_addCandidate_queue_strong (mem_of_mem_prune hc'') with
        ⟨rfl, _⟩ | hcB'
      · exact hnewub c hcB
      · exact h2 c hcB c' hcB'
  · intro c hc'
    rcases mem_addCandidate_queue_strong (mem_of_mem_prune hc') with
      ⟨rfl, _⟩ | hcB
    · exact Or.inl rfl
    · exact Or.inr hcB

end Lmm

namespace Lmm

/-- The two skip successors (right and down, carrying the unchanged parent
score) preserve the frontier invariants. -/
theorem skips_inv (cfg : Config) {P F : State} {cand : Candidate}
    (hF : F = addCandidate cfg
      (addCandidate cfg P cand.score cand.i cand.j 1 0)
      cand.score cand.i cand.j 0 1)
    (hs : P.queue.Pairwise (metricGe cfg))
    (hr : ∀ c ∈ P.queue, inRange cfg c)
    (h1 : ∀ c ∈ P.queue, P.bestMatch ≤ upperBound cfg c)
    (h2 : ∀ c ∈ P.queue, ∀ c' ∈ P.queue, c.score ≤ upperBound cfg c')
    (hc : inRange cfg cand)
    (hold : ∀ x ∈ P.queue, cand.score ≤ upperBound cfg x)
    (hmix : ∀ x ∈ P.queue,
      metric cfg x ≤ metric cfg cand ∨ x.score ≤ cand.score + 1) :
    F.queue.Pairwise (metricGe cfg) ∧
    (∀ c ∈ F.queue, inRange cfg c) ∧
    (∀ c ∈ F.queue, F.bestMatch ≤ upperBound cfg c) ∧
    (∀ c ∈ F.queue, ∀ c' ∈ F.queue, c.score ≤ upperBound cfg c') := by
  subst hF
  have hnew1 : cand.i + 1 < cfg.width → cand.j + 0 < cfg.height →
      ∀ x ∈ P.queue,
        x.score ≤ upperBound cfg ⟨cand.i + 1, cand.j + 0, cand.score⟩ := by
    intro hi hj x hx
    rcases hmix x hx with hm | hband
    · refine new_child_ub_ge cfg hm (hr x hx) hc le_rfl (by linarith) ?_
      have := upperBound_child cfg cand cand.score 1 0 le_rfl (by norm_num)
      linarith
    · have hone := add_one_le_upperBound cfg
        (c := ⟨cand.i + 1, cand.j + 0, cand.score⟩) ⟨hi, hj⟩
      dsimp only at hone
      linarith
  obtain ⟨s1, r1, j11, j21⟩ := addCandidate_qinv cfg hs hr h1 h2 hnew1 hold
  have hold1 : ∀ x ∈ (addCandidate cfg P cand.score cand.i cand.j 1 0).queue,
      cand.score ≤ upperBound cfg x := by
    intro x hx
    rcases mem_addCandidate_queue_strong hx with ⟨rfl, _⟩ | hx
    · exact score_le_upperBound cfg _
    · exact hold x hx
  have hmix1 : ∀ x ∈ (addCandidate cfg P cand.score cand.i cand.j 1 0).queue,
      metric cfg x ≤ metric cfg cand ∨ x.score ≤ cand.score + 1 := by
    intro x hx
    rcases mem_addCandidate_queue_strong hx with ⟨rfl, _⟩ | hx
    · exact Or.inr (by dsimp only; linarith)
    · exact hmix x hx
  have hnew2 : cand.i + 0 < cfg.width → cand.j + 1 < cfg.height →
      ∀ x ∈ (addCandidate cfg P cand.score cand.i cand.j 1 0).queue,
        x.score ≤ upperBound cfg ⟨cand.i + 0, cand.j + 1, cand.score⟩ := by
    intro hi hj x hx
    rcases hmix1 x hx with hm | hband
    · refine new_child_ub_ge cfg hm (r1 x hx) hc le_rfl (by linarith) ?_
      have := upperBound_child cfg cand cand.score 0 1 (by norm_num) le_rfl
      linarith
    · have hone := add_one_le_upperBound cfg
        (c := ⟨cand.i + 0, cand.j + 1, cand.score⟩) ⟨hi, hj⟩
      dsimp only at hone
      linarith
  exact addCandidate_qinv cfg s1 r1 j11 j21 hnew2 hold1

end Lmm
namespace Lmm

theorem step_qinv (cfg : Config)
    (hf : ∀ i j, 0 ≤ cfg.matcher i j ∧ cfg.matcher i j ≤ 1)
    {s : State} (h : Inv cfg s) :
    (step cfg s).queue.Pairwise (metricGe cfg) ∧
    (∀ c ∈ (step cfg s).queue, inRange cfg c) ∧
    (∀ c ∈ (step cfg s).queue, (step cfg s).bestMatch ≤ upperBound cfg c) ∧
    (∀ c ∈ (step cfg s).queue, ∀ c' ∈ (step cfg s).queue,
      c.score ≤ upperBound cfg c') := by
  rcases hq : s.queue with _ | ⟨cand, rest⟩
  · have hid : step cfg s = s := by
      unfold step
      rw [hq]
    rw [hid]
    exact ⟨h.sorted, h.inrange, h.j1, h.j2⟩
  · have hmem : cand ∈ s.queue := hq ▸ List.mem_cons_self _ _
    have hc : inRange cfg cand := h.inrange cand hmem
    have hsortrest : rest.Pairwise (metricGe cfg) :=
      (List.pairwise_cons.mp (hq ▸ h.sorted)).2
    have hdomrest : ∀ x ∈ rest, metric cfg x ≤ metric cfg cand :=
      (List.pairwise_cons.mp (hq ▸ h.sorted)).1
    have hrrest : ∀ x ∈ rest, inRange cfg x :=
      fun x hx => h.inrange x (hq ▸ List.mem_cons_of_mem _ hx)
    have h1rest : ∀ x ∈ rest, s.bestMatch ≤ upperBound cfg x :=
      fun x hx => h.j1 x (hq ▸ List.mem_cons_of_mem _ hx)
    have h2rest : ∀ x ∈ rest, ∀ x' ∈ rest, x.score ≤ upperBound cfg x' :=
      fun x hx x' hx' => h.j2 x (hq ▸ List.mem_cons_of_mem _ hx)
        x' (hq ▸ List.mem_cons_of_mem _ hx')
    have hpop : ∀ x ∈ rest, cand.score ≤ upperBound cfg x :=
      fun x hx => h.j2 cand hmem x (hq ▸ List.mem_cons_of_mem _ hx)
    unfold step
    rw [hq]
    dsimp only
    split
    · exact ⟨hsortrest, hrrest, h1rest, h2rest⟩
    · by_cases hev : (s.matchMatrix (matchIdx cfg.width cand.i cand.j)).eval = -1
      · simp only [if_pos hev, setCell_matchMatrix_self]
        have he0 := (hf cand.i cand.j).1
        have he1 := (hf cand.i cand.j).2
        split
        · -- e < branchThreshold: skip branches are emitted
          split
          · -- e > 0: diagonal plus prune precede the skips
            rename_i hpos
            refine skips_inv cfg rfl ?_ ?_ ?_ ?_ hc ?_ ?_
            · exact (diag_prune_inv cfg rfl hsortrest hrrest h1rest h2rest
                hc he0 he1 hdomrest).1
            · exact (diag_prune_inv cfg rfl hsortrest hrrest h1rest h2rest
                hc he0 he1 hdomrest).2.1
            · exact (diag_prune_inv cfg rfl hsortrest hrrest h1rest h2rest
                hc he0 he1 hdomrest).2.2.1
            · exact (diag_prune_inv cfg rfl hsortrest hrrest h1rest h2rest
                hc he0 he1 hdomrest).2.2.2.1
            · intro x hx
              have := (diag_prune_inv cfg rfl hsortrest hrrest h1rest h2rest
                hc he0 he1 hdomrest).2.2.2.2.1 x hx
              linarith
            · intro x hx
              rcases (diag_prune_inv cfg rfl hsortrest hrrest h1rest h2rest
                hc he0 he1 hdomrest).2.2.2.2.2 x hx with rfl | hxB
              · exact Or.inr (by dsimp only; linarith)
              · exact Or.inl (hdomrest x hxB)
          · -- e ≤ 0: only the two skip branches
            refine skips_inv cfg rfl ?_ ?_ ?_ ?_ hc ?_ ?_
            · exact hsortrest
            · exact hrrest
            · exact h1rest
            · exact h2rest
            · exact hpop
            · exact fun x hx => Or.inl (hdomrest x hx)
        · -- e ≥ branchThreshold: no skip branches
          split
          · rename_i hpos
            refine ⟨?_, ?_, ?_, ?_⟩
            · exact (diag_prune_inv cfg rfl hsortrest hrrest h1rest h2rest
                hc he0 he1 hdomrest).1
            · exact (diag_prune_inv cfg rfl hsortrest hrrest h1rest h2rest
                hc he0 he1 hdomrest).2.1
            · exact (diag_prune_inv cfg rfl hsortrest hrrest h1rest h2rest
                hc he0 he1 hdomrest).2.2.1
            · exact (diag_prune_inv cfg rfl hsortrest hrrest h1rest h2rest
                hc he0 he1 hdomrest).2.2.2.1
          · exact ⟨hsortrest, hrrest, h1rest, h2rest⟩
      · simp only [if_neg hev, setCell_matchMatrix_self]
        have he1 : (s.matchMatrix (matchIdx cfg.width cand.i cand.j)).eval ≤ 1 := by
          rcases h.evalr (matchIdx cfg.width cand.i cand.j) with hcon | ⟨_, hle⟩
          · exact absurd hcon hev
          · exact hle
        split
        · split
          · rename_i hpos
            have he0 : (0:ℚ) ≤ (s.matchMatrix (matchIdx cfg.width cand.i cand.j)).eval :=
              le_of_lt hpos
            refine skips_inv cfg rfl ?_ ?_ ?_ ?_ hc ?_ ?_
            · exact (diag_prune_inv cfg rfl hsortrest hrrest h1rest h2rest
                hc he0 he1 hdomrest).1
            · exact (diag_prune_inv cfg rfl hsortrest hrrest h1rest h2rest
                hc he0 he1 hdomrest).2.1
            · exact (diag_prune_inv cfg rfl hsortrest hrrest h1rest h2rest
                hc he0 he1 hdomrest).2.2.1
            · exact (diag_prune_inv cfg rfl hsortrest hrrest h1rest h2rest
                hc he0 he1 hdomrest).2.2.2.1
            · intro x hx
              have := (diag_prune_inv cfg rfl hsortrest hrrest h1rest h2rest
                hc he0 he1 hdomrest).2.2.2.2.1 x hx
              linarith
            · intro x hx
              rcases (diag_prune_inv cfg rfl hsortrest hrrest h1rest h2rest
                hc he0 he1 hdomrest).2.2.2.2.2 x hx with rfl | hxB
              · exact Or.inr (by dsimp only; linarith)
              · exact Or.inl (hdomrest x hxB)
          · refine skips_inv cfg rfl ?_ ?_ ?_ ?_ hc ?_ ?_
            · exact hsortrest
            · exact hrrest
            · exact h1rest
            · exact h2rest
            · exact hpop
            · exact fun x hx => Or.inl (hdomrest x hx)
        · split
          · rename_i hpos
            have he0 : (0:ℚ) ≤ (s.matchMatrix (matchIdx cfg.width cand.i cand.j)).eval :=
              le_of_lt hpos
            refine ⟨?_, ?_, ?_, ?_⟩
            · exact (diag_prune_inv cfg rfl hsortrest hrrest h1rest h2rest
                hc he0 he1 hdomrest).1
            · exact (diag_prune_inv cfg rfl hsortrest hrrest h1rest h2rest
                hc he0 he1 hdomrest).2.1
            · exact (diag_prune_inv cfg rfl hsortrest hrrest h1rest h2rest
                hc he0 he1 hdomrest).2.2.1
            · exact (diag_prune_inv cfg rfl hsortrest hrrest h1rest h2rest
                hc he0 he1 hdomrest).2.2.2.1
          · exact ⟨hsortrest, hrrest, h1rest, h2rest⟩

end Lmm

namespace Lmm

/-- One step preserves the eval-range part of the invariant. -/
theorem step_evalr (cfg : Config)
    (hf : ∀ i j, 0 ≤ cfg.matcher i j ∧ cfg.matcher i j ≤ 1)
    {s : State}
    (h : ∀ idx, (s.matchMatrix idx).eval = -1 ∨
      (0 ≤ (s.matchMatrix idx).eval ∧ (s.matchMatrix idx).eval ≤ 1)) :
    ∀ idx, ((step cfg s).matchMatrix idx).eval = -1 ∨
      (0 ≤ ((step cfg s).matchMatrix idx).eval ∧
        ((step cfg s).matchMatrix idx).eval ≤ 1) := by
  rcases hq : s.queue with _ | ⟨cand, rest⟩
  · have hid : step cfg s = s := by
      unfold step
      rw [hq]
    rw [hid]
    exact h
  · rcases step_eval_cases cfg hq with ⟨_, _, hmm⟩ |
      ⟨_, _, _, hself, hother⟩
    · intro idx
      rw [hmm]
      exact h idx
    · intro idx
      by_cases hidx : idx = matchIdx cfg.width cand.i cand.j
      · subst hidx
        rw [hself]
        exact Or.inr (hf cand.i cand.j)
      · rw [hother _ hidx]
        exact h idx

/-- One step preserves the full frontier invariant. -/
theorem step_inv (cfg : Config)
    (hf : ∀ i j, 0 ≤ cfg.matcher i j ∧ cfg.matcher i j ≤ 1)
    {s : State} (h : Inv cfg s) : Inv cfg (step cfg s) := by
  obtain ⟨q1, q2, q3, q4⟩ := step_qinv cfg hf h
  exact ⟨q1, q2, q3, q4, step_evalr cfg hf h.evalr⟩

theorem addCandidate_popGe (cfg : Config) (s : State) (sc : ℚ)
    (i j aI aJ : ℕ) : (addCandidate cfg s sc i j aI aJ).popGe = s.popGe := by
  unfold addCandidate insertCandidate
  split
  · split <;> rfl
  · split <;> rfl

theorem prune_popGe (cfg : Config) (m : ℚ) (s : State) :
    (prune cfg m s).popGe = s.popGe := rfl

theorem setCell_popGe (s : State) (idx : ℕ) (m : EvalMatch) :
    (setCell s idx m).popGe = s.popGe := rfl

/-- If the popped candidate's upper bound reaches `bestMatch` — which the
invariant guarantees — the pop-site assertion ghost keeps its value. -/
theorem step_popGe (cfg : Config) {s : State} (h : Inv cfg s) :
    (step cfg s).popGe = s.popGe := by
  rcases hq : s.queue with _ | ⟨cand, rest⟩
  · unfold step
    rw [hq]
  · have hub : maxPossibleScore cfg cand.score cand.i cand.j ≥ s.bestMatch :=
      h.j1 cand (hq ▸ List.mem_cons_self _ _)
    unfold step
    rw [hq]
    dsimp only
    repeat' split
    all_goals simp only [addCandidate_popGe, prune_popGe, setCell_popGe]
    all_goals simp [decide_eq_true hub]

theorem steps_inv (cfg : Config)
    (hf : ∀ i j, 0 ≤ cfg.matcher i j ∧ cfg.matcher i j ≤ 1) (n : ℕ) :
    ∀ s : State, Inv cfg s → Inv cfg (steps cfg n s) := by
  induction n with
  | zero => intro s h; exact h
  | succ n ih =>
    intro s h
    unfold steps
    split
    · exact h
    · exact ih _ (step_inv cfg hf h)

theorem steps_popGe (cfg : Config)
    (hf : ∀ i j, 0 ≤ cfg.matcher i j ∧ cfg.matcher i j ≤ 1) (n : ℕ) :
    ∀ s : State, Inv cfg s → (steps cfg n s).popGe = s.popGe := by
  induction n with
  | zero => intro s _; rfl
  | succ n ih =>
    intro s h
    unfold steps
    split
    · rfl
    · rw [ih _ (step_inv cfg hf h), step_popGe cfg h]

theorem initState_inv (cfg : Config) (hW : 0 < cfg.width)
    (hH : 0 < cfg.height) : Inv cfg (initState cfg) := by
  have hone : ∀ c ∈ (initState cfg).queue, c = (⟨0, 0, 0⟩ : Candidate) := by
    intro c hc
    rw [initState_queue] at hc
    rcases List.mem_cons.mp hc with rfl | hc
    · rfl
    · simp at hc
  refine ⟨?_, ?_, ?_, ?_, ?_⟩
  · rw [initState_queue]
    simp [List.pairwise_cons]
  · intro c hc
    rw [hone c hc]
    exact ⟨hW, hH⟩
  · intro c hc
    rw [hone c hc]
    have h0 := score_le_upperBound cfg (⟨0, 0, 0⟩ : Candidate)
    have : (initState cfg).bestMatch = -1 := rfl
    rw [this]
    dsimp only at h0 ⊢
    linarith
  · intro c hc c' hc'
    rw [hone c hc, hone c' hc']
    exact score_le_upperBound cfg _
  · intro idx
    exact Or.inl rfl

end Lmm

namespace Lmm

/-! ## C7 (amended): the pop-site assertion -/

/-- **C7 (amended).**  For an engine with positive dimensions and a matcher
honouring the `[0,1]` contract, whenever `step()` pops a candidate
`(i, j, score)` from the frontier, its upper bound
`score + min(W − i, H − j)` is at least (not necessarily strictly greater
than) the current `bestMatch`, so the non-strict
`dlg_assert(maxPossibleScore(cand.score, cand.i, cand.j) >= bestMatch_)`
at the pop site holds on every execution: the ghost flag recording it
stays `true` after any number of driver iterations. -/
theorem pop_upperBound_ge_bestMatch (cfg : Config)
    (hW : 0 < cfg.width) (hH : 0 < cfg.height)
    (hf : ∀ i j, 0 ≤ cfg.matcher i j ∧ cfg.matcher i j ≤ 1) (fuel : ℕ) :
    (steps cfg fuel (initState cfg)).popGe = true := by
  rw [steps_popGe cfg hf fuel (initState cfg) (initState_inv cfg hW hH)]
  rfl

/-- Witness for `pop_upperBound_ge_bestMatch`: the 2×2 anti-diagonal run of
the counterexample to the strict version. -/
theorem pop_upperBound_ge_bestMatch_witness :
    (steps swapCfg 20 (initState swapCfg)).popGe = true :=
  pop_upperBound_ge_bestMatch swapCfg (by decide) (by decide)
    (fun i j => by
      by_cases hij : i = j <;> simp [swapCfg, hij]) 20

end Lmm
